import Mathlib

/-!
Verification of the FuzzyMatch comparison harnesses (bench-nucleo and
quality-nucleo, `src/Comparison/`).  Rust strings are modelled as `List Char`;
the external nucleo scorer is modelled as an abstract function
`Nat → Option Nat` giving, for each candidate index, the optional score the
library returns for that candidate against the current pattern.  Machine
integers (`u32` scores, `usize` indices) are modelled as `Nat`: the program
only compares and counts them, so no overflow is observable.  `f64` timings
are modelled as `ℚ`: the program only sorts and indexes them (no NaN can
arise from `Instant` durations), so any linearly ordered dense field is an
order-faithful model.
-/

namespace FuzzyMatch

/-- Rust `&str` / `String`, modelled as the list of its characters. -/
abbrev Str := List Char

/-- Models Rust `line.split('\t')`: splits at every tab, yielding one field
more than the number of tabs (empty fields included). -/
def splitTab : Str → List Str
  | [] => [[]]
  | c :: rest =>
    let r := splitTab rest
    if c = '\t' then [] :: r
    else
      match r with
      | [] => [[c]]
      | f :: others => (c :: f) :: others

/-- The `Instrument` struct of both tools. -/
structure Instrument where
  symbol : Str
  name : Str
  isin : Str
deriving DecidableEq

/-- The `Query` struct of the bench tool. -/
structure Query where
  text : Str
  field : Str
  category : Str
deriving DecidableEq

/-- One line of the corpus body: split on tab, kept only when it has at least
3 columns, fields taken from columns 0, 1, 2 (bench `main.rs` 82-89,
quality `main.rs` 24-31). -/
def parseInstrumentLine (line : Str) : Option Instrument :=
  let cols := splitTab line
  if 3 ≤ cols.length then
    some ⟨cols.getD 0 [], cols.getD 1 [], cols.getD 2 []⟩
  else none

/-- The corpus loader of both tools: the first line (index 0 in the
`enumerate` loop) is skipped as the header, every later line is parsed and
kept when well-formed (bench `main.rs` 78-90, quality `main.rs` 20-32). -/
def loadInstruments (lines : List Str) : List Instrument :=
  match lines with
  | [] => []
  | _header :: rest => rest.filterMap parseInstrumentLine

/-- One line of the queries file: empty lines are skipped, then split on tab
and kept when it has at least 3 columns (bench `main.rs` 27-39). -/
def parseQueryLine (line : Str) : Option Query :=
  if line = [] then none
  else
    let cols := splitTab line
    if 3 ≤ cols.length then
      some ⟨cols.getD 0 [], cols.getD 1 [], cols.getD 2 []⟩
    else none

/-- The query loader of the bench tool (`load_queries`, bench `main.rs`
24-41).  It has no header line. -/
def loadQueries (lines : List Str) : List Query :=
  lines.filterMap parseQueryLine

/-- Field selection of the quality tool (quality `main.rs` 52-58): the
literal "symbol" selects the symbol field, "isin" the isin field, anything
else the name field. -/
def selectField (field : Str) (inst : Instrument) : Str :=
  if field = "symbol".toList then inst.symbol
  else if field = "isin".toList then inst.isin
  else inst.name

/-- Candidate-array selection of the bench tool (bench `main.rs` 153-159,
and identically 115-121): the pre-extracted array of the selected field. -/
def benchCandidates (field : Str) (instruments : List Instrument) : List Str :=
  if field = "symbol".toList then instruments.map Instrument.symbol
  else if field = "isin".toList then instruments.map Instrument.isin
  else instruments.map Instrument.name

/-- Models `fs::read_to_string(path).expect("Failed to read queries TSV file")`
followed by parsing (bench `main.rs` 25): a failed read aborts with the
diagnostic; no partial query list is produced. -/
def loadQueriesChecked (readResult : Except ε (List Str)) : Except Str (List Query) :=
  match readResult with
  | .error _ => .error "Failed to read queries TSV file".toList
  | .ok lines => .ok (loadQueries lines)

/-- Models `fs::read_to_string(path).expect("Failed to read TSV file")`
followed by corpus parsing (bench `main.rs` 75, quality `main.rs` 17): a
failed read aborts with the diagnostic; no partial corpus is produced. -/
def loadInstrumentsChecked (readResult : Except ε (List Str)) : Except Str (List Instrument) :=
  match readResult with
  | .error _ => .error "Failed to read TSV file".toList
  | .ok lines => .ok (loadInstruments lines)

/-- Ordered insertion used to model sorting.  `le a b = true` means the
comparator lets `a` stay before `b` (it returned Less or Equal on `(a, b)`). -/
def insertOrdered (le : α → α → Bool) (x : α) : List α → List α
  | [] => [x]
  | y :: ys => if le x y then x :: y :: ys else y :: insertOrdered le x ys

/-- Models Rust `slice::sort_by`, which is documented to be a stable sort:
insertion sort is stable, and agrees with any stable sort for a total
comparator. -/
def stableSortBy (le : α → α → Bool) : List α → List α
  | [] => []
  | x :: xs => insertOrdered le x (stableSortBy le xs)

/-- The `TOP_K` constant of the bench tool (bench `main.rs` 10). -/
def TOP_K : Nat := 100

/-- The order on `(score, candidate index)` pairs used by the bench tool's
`BinaryHeap<Reverse<(u32, usize)>>`: Rust derives lexicographic `Ord` on
tuples, and `Reverse` makes `pop` remove the least pair in this order. -/
def lexLe (a b : Nat × Nat) : Bool :=
  decide (a.1 < b.1 ∨ (a.1 = b.1 ∧ a.2 ≤ b.2))

/-- One loop body of the bench candidate scan for a matched candidate
(bench `main.rs` 172-175): push `(score, index)`; when the heap then holds
more than `TOP_K` elements, pop its least pair.  The heap's multiset of
elements is represented as the list sorted ascending in `lexLe`, so a push
is an ordered insertion and popping the minimum drops the head. -/
def heapStep (heap : List (Nat × Nat)) (x : Nat × Nat) : List (Nat × Nat) :=
  let h := insertOrdered lexLe x heap
  if TOP_K < h.length then h.tail else h

/-- The candidate scan of the bench tool for one query (bench `main.rs`
164-177): `score i` is the optional score the external matcher returns for
candidate `i`; candidates `0, …, n-1` are scanned in order, counting
matches and maintaining the bounded heap.  Returns (heap, match_count). -/
def scanTopK (score : Nat → Option Nat) : Nat → List (Nat × Nat) × Nat
  | 0 => ([], 0)
  | n + 1 =>
    match score n with
    | none => scanTopK score n
    | some s => (heapStep (scanTopK score n).1 (s, n), (scanTopK score n).2 + 1)

/-- All `(score, index)` pairs the matcher accepts among candidates
`0, …, n-1`, in candidate order.  This is exactly the `results` vector the
quality tool builds before sorting (quality `main.rs` 48-65). -/
def matchedPairs (score : Nat → Option Nat) (n : Nat) : List (Nat × Nat) :=
  (List.range n).filterMap (fun i => (score i).map (fun s => (s, i)))

/-- Specification-side definition: ascending `lexLe` insertion sort,
accumulated from the left so that appending an element commutes with
sorting. -/
def sortLexAsc (l : List (Nat × Nat)) : List (Nat × Nat) :=
  l.foldl (fun acc x => insertOrdered lexLe x acc) []

/-- Specification-side definition, from the words of the claim about the
retained top-K set: the at most `TOP_K` lexicographically greatest
`(score, index)` pairs of `l`, listed in ascending `lexLe` order. -/
def topKLex (l : List (Nat × Nat)) : List (Nat × Nat) :=
  (sortLexAsc l).drop (l.length - TOP_K)

/-- The score-only descending comparator `|a, b| b.0.cmp(&a.0)` used by both
tools to sort scored results (bench `main.rs` 181, quality `main.rs` 67):
`a` may stay before `b` exactly when `a`'s score is at least `b`'s. -/
def scoreDescLe (a b : Nat × Nat) : Bool := decide (b.1 ≤ a.1)

/-- Drain the bench heap and sort descending by score (bench `main.rs`
179-181). -/
def benchTopResults (score : Nat → Option Nat) (n : Nat) : List (Nat × Nat) :=
  stableSortBy scoreDescLe (scanTopK score n).1

/-- The quality tool's scored results after its descending stable sort
(quality `main.rs` 48-67). -/
def qualitySorted (score : Nat → Option Nat) (n : Nat) : List (Nat × Nat) :=
  stableSortBy scoreDescLe (matchedPairs score n)

/-- The rows the quality tool prints for one accepted input line (quality
`main.rs` 69-80): the first 10 sorted results, enumerated, each printed with
rank `position + 1`; a row is `(rank, score, candidate index)`. -/
def qualityRows (score : Nat → Option Nat) (n : Nat) : List (Nat × Nat × Nat) :=
  ((qualitySorted score n).take 10).enum.map (fun p => (p.1 + 1, p.2))

/-- The comparator `a.partial_cmp(b)` on (never-NaN) `f64` values, modelled
on `ℚ`. -/
def qLe (a b : ℚ) : Bool := decide (a ≤ b)

/-- The median reported by the bench tool (bench `main.rs` 202-204, and the
same pattern at 264-270 and 316-318): clone the timings, sort ascending,
take the element at index `length / 2`. -/
def medianTiming (timings : List ℚ) : ℚ :=
  (stableSortBy qLe timings).getD (timings.length / 2) 0

/-- The inner query loop of one bench iteration as far as match counts are
concerned (bench `main.rs` 152-189): `mc iter qi` is the match count the
scan of query `qi` observes during iteration `iter` (the external matcher is
a black box, so per-iteration counts are modelled as arbitrary);
`query_match_counts[qi]` is assigned only when `iter == 0`. -/
def recordMatchCounts (iter : Nat) (mc : Nat → Nat → Nat) (queryCount : Nat)
    (counts : List Nat) : List Nat :=
  (List.range queryCount).foldl
    (fun cs qi => if iter = 0 then cs.set qi (mc iter qi) else cs) counts

/-- The iteration loop of the bench tool, restricted to its effect on
`query_match_counts` (bench `main.rs` 136, 148-195). -/
def benchMatchCounts (iterations queryCount : Nat) (mc : Nat → Nat → Nat) :
    List Nat :=
  (List.range iterations).foldl
    (fun cs iter => recordMatchCounts iter mc queryCount cs)
    (List.replicate queryCount 0)

/-- The fixed preferred display order of the per-category summary (bench
`main.rs` 227-237). -/
def preferredCategories : List Str :=
  ["exact_symbol".toList, "exact_name".toList, "exact_isin".toList,
   "prefix".toList, "typo".toList, "substring".toList, "multi_word".toList,
   "symbol_spaces".toList, "abbreviation".toList]

/-- The categories the per-category summary table iterates over (bench
`main.rs` 239-245): the preferred list filtered to categories present in the
query set (`HashSet::contains` is modelled as `List.any`). -/
def shownCategories (queries : List Query) : List Str :=
  preferredCategories.filter (fun c => queries.any (fun q => q.category = c))

/-- The throughput numerator `total_candidates_scored` (bench `main.rs`
213-214): candidates per query times the number of ALL loaded queries,
regardless of category. -/
def totalCandidatesScored (instrumentCount queryCount : Nat) : Nat :=
  instrumentCount * queryCount

/-- The row order of the per-query detail table (bench `main.rs` 303-312):
all query indices `0, …, query_count-1`, stably sorted by descending median
timing. -/
def detailIndices (queryCount : Nat) (medianOf : Nat → ℚ) : List Nat :=
  stableSortBy (fun a b => decide (medianOf b ≤ medianOf a))
    (List.range queryCount)

lemma parseInstrumentLine_eq_none (line : Str)
    (h : (splitTab line).length < 3) : parseInstrumentLine line = none := by
  simp [parseInstrumentLine, Nat.not_le.mpr h]

lemma parseInstrumentLine_eq_some (line : Str)
    (h : 3 ≤ (splitTab line).length) :
    parseInstrumentLine line
      = some ⟨(splitTab line).getD 0 [], (splitTab line).getD 1 [],
              (splitTab line).getD 2 []⟩ := by
  simp [parseInstrumentLine, h]

lemma length_loadInstruments_aux (rest : List Str) :
    (rest.filterMap parseInstrumentLine).length
      + (rest.filter (fun l => (splitTab l).length < 3)).length
      = rest.length := by
  induction rest with
  | nil => rfl
  | cons x xs ih =>
    by_cases h : 3 ≤ (splitTab x).length
    · rw [List.filterMap_cons, parseInstrumentLine_eq_some x h]
      simp only [List.filter_cons, decide_eq_true_eq]
      rw [if_neg (by omega), List.length_cons, List.length_cons]
      omega
    · rw [List.filterMap_cons, parseInstrumentLine_eq_none x (by omega)]
      simp only [List.filter_cons, decide_eq_true_eq]
      rw [if_pos (by omega), List.length_cons, List.length_cons]
      omega

lemma filterMap_parseInstrumentLine (rest : List Str) :
    rest.filterMap parseInstrumentLine
      = (rest.filter (fun l => 3 ≤ (splitTab l).length)).map
          (fun l => ⟨(splitTab l).getD 0 [], (splitTab l).getD 1 [],
                     (splitTab l).getD 2 []⟩) := by
  induction rest with
  | nil => rfl
  | cons x xs ih =>
    by_cases h : 3 ≤ (splitTab x).length
    · rw [List.filterMap_cons, parseInstrumentLine_eq_some x h]
      simp only [List.filter_cons, decide_eq_true_eq]
      rw [if_pos h, List.map_cons, ih]
    · rw [List.filterMap_cons, parseInstrumentLine_eq_none x (Nat.not_le.mp h)]
      simp only [List.filter_cons, decide_eq_true_eq]
      rw [if_neg h, ih]

/-- C4: for every corpus file, the number of loaded instruments equals the
number of input lines minus the header line minus the (post-header) lines
that split on tab into fewer than 3 columns; the loaded instruments appear
in input-line order with fields taken from columns 0 (symbol), 1 (name) and
2 (isin). -/
theorem claim4_corpus_loader (lines : List Str) (hne : lines ≠ []) :
    (loadInstruments lines).length
      = lines.length - 1
          - ((lines.drop 1).filter (fun l => (splitTab l).length < 3)).length
  ∧ loadInstruments lines
      = ((lines.drop 1).filter (fun l => 3 ≤ (splitTab l).length)).map
          (fun l => ⟨(splitTab l).getD 0 [], (splitTab l).getD 1 [],
                     (splitTab l).getD 2 []⟩) := by
  obtain ⟨hd, rest, rfl⟩ : ∃ hd rest, lines = hd :: rest := by
    cases lines with
    | nil => exact absurd rfl hne
    | cons hd rest => exact ⟨hd, rest, rfl⟩
  constructor
  · show (rest.filterMap parseInstrumentLine).length = _
    have hsplit := length_loadInstruments_aux rest
    simp only [List.drop_one, List.tail_cons, List.length_cons]
    omega
  · show rest.filterMap parseInstrumentLine = _
    simp only [List.drop_one, List.tail_cons]
    exact filterMap_parseInstrumentLine rest

/-- Witness for C4 at a concrete corpus: a header line, two well-formed
3-column lines and one malformed 2-column line load exactly two instruments,
in order, with the column fields. -/
theorem claim4_corpus_loader_witness :
    (loadInstruments ["hdr".toList, "a\tb\tc".toList, "x\ty".toList,
        "d\te\tf".toList]).length
      = (["hdr".toList, "a\tb\tc".toList, "x\ty".toList, "d\te\tf".toList] :
          List Str).length - 1
          - (((["hdr".toList, "a\tb\tc".toList, "x\ty".toList,
              "d\te\tf".toList] : List Str).drop 1).filter
              (fun l => (splitTab l).length < 3)).length := by
  exact (claim4_corpus_loader _ (by decide)).1

/-- C2: for every query in both tools, the scored instrument field is
determined solely by the literal field-selector string: "symbol" selects the
symbol field, "isin" the isin field, any other value the name field — both
for the quality tool's per-instrument selection and for the bench tool's
pre-extracted candidate arrays. -/
theorem claim2_field_selection (field : Str) (inst : Instrument)
    (instruments : List Instrument) :
    (field = "symbol".toList →
      selectField field inst = inst.symbol
      ∧ benchCandidates field instruments = instruments.map Instrument.symbol)
  ∧ (field = "isin".toList →
      selectField field inst = inst.isin
      ∧ benchCandidates field instruments = instruments.map Instrument.isin)
  ∧ (field ≠ "symbol".toList → field ≠ "isin".toList →
      selectField field inst = inst.name
      ∧ benchCandidates field instruments = instruments.map Instrument.name) := by
  refine ⟨fun h => ⟨?_, ?_⟩, fun h => ⟨?_, ?_⟩, fun h1 h2 => ⟨?_, ?_⟩⟩
  · unfold selectField; rw [if_pos h]
  · unfold benchCandidates; rw [if_pos h]
  · unfold selectField
    rw [if_neg (show ¬(field = "symbol".toList) by rw [h]; decide), if_pos h]
  · unfold benchCandidates
    rw [if_neg (show ¬(field = "symbol".toList) by rw [h]; decide), if_pos h]
  · unfold selectField; rw [if_neg h1, if_neg h2]
  · unfold benchCandidates; rw [if_neg h1, if_neg h2]

/-- Witness for C2 at concrete inputs: an unrecognized selector "sector"
falls back to the name field; "symbol" and "isin" select their fields. -/
theorem claim2_field_selection_witness :
    (selectField "sector".toList ⟨"AAPL".toList, "Apple".toList, "US1".toList⟩
      = "Apple".toList)
  ∧ (selectField "symbol".toList ⟨"AAPL".toList, "Apple".toList, "US1".toList⟩
      = "AAPL".toList)
  ∧ (selectField "isin".toList ⟨"AAPL".toList, "Apple".toList, "US1".toList⟩
      = "US1".toList) :=
  ⟨((claim2_field_selection "sector".toList
      ⟨"AAPL".toList, "Apple".toList, "US1".toList⟩ []).2.2
      (by decide) (by decide)).1,
   ((claim2_field_selection "symbol".toList
      ⟨"AAPL".toList, "Apple".toList, "US1".toList⟩ []).1 rfl).1,
   ((claim2_field_selection "isin".toList
      ⟨"AAPL".toList, "Apple".toList, "US1".toList⟩ []).2.1 rfl).1⟩

/-- C8: for every failed read of a corpus or query file, the load aborts
with the source's diagnostic message and yields no data at all (no partial
list is ever produced); a successful read is parsed in full.  The `expect`
panic of the Rust source is modelled as the `Except.error` branch. -/
theorem claim8_fatal_io (ε : Type) (e : ε) :
    loadQueriesChecked (Except.error e)
        = Except.error "Failed to read queries TSV file".toList
  ∧ (∀ qs, loadQueriesChecked (Except.error e) ≠ Except.ok qs)
  ∧ loadInstrumentsChecked (Except.error e)
        = Except.error "Failed to read TSV file".toList
  ∧ (∀ insts, loadInstrumentsChecked (Except.error e) ≠ Except.ok insts)
  ∧ (∀ lines, loadInstrumentsChecked (ε := ε) (Except.ok lines)
        = Except.ok (loadInstruments lines)) := by
  refine ⟨rfl, fun qs h => ?_, rfl, fun insts h => ?_, fun lines => rfl⟩
  · exact Except.noConfusion h
  · exact Except.noConfusion h

lemma mem_insertOrdered (le : α → α → Bool) (x a : α) (l : List α) :
    a ∈ insertOrdered le x l ↔ a = x ∨ a ∈ l := by
  induction l with
  | nil => simp [insertOrdered]
  | cons y ys ih =>
    by_cases h : le x y = true
    · rw [insertOrdered, if_pos h]
      simp only [List.mem_cons]
    · rw [insertOrdered, if_neg h]
      simp only [List.mem_cons, ih]
      tauto

lemma insertOrdered_perm (le : α → α → Bool) (x : α) (l : List α) :
    (insertOrdered le x l).Perm (x :: l) := by
  induction l with
  | nil => exact List.Perm.refl _
  | cons y ys ih =>
    by_cases h : le x y = true
    · rw [insertOrdered, if_pos h]
    · rw [insertOrdered, if_neg h]
      exact (ih.cons y).trans (List.Perm.swap x y ys)

lemma stableSortBy_perm (le : α → α → Bool) (l : List α) :
    (stableSortBy le l).Perm l := by
  induction l with
  | nil => exact List.Perm.refl _
  | cons x xs ih =>
    exact (insertOrdered_perm le x _).trans (ih.cons x)

lemma length_stableSortBy (le : α → α → Bool) (l : List α) :
    (stableSortBy le l).length = l.length :=
  (stableSortBy_perm le l).length_eq

lemma pairwise_insertOrdered (le : α → α → Bool)
    (htot : ∀ a b, le a b = false → le b a = true)
    (htrans : ∀ a b c, le a b = true → le b c = true → le a c = true)
    (x : α) (l : List α) (hl : l.Pairwise (fun a b => le a b = true)) :
    (insertOrdered le x l).Pairwise (fun a b => le a b = true) := by
  induction l with
  | nil => simp [insertOrdered]
  | cons y ys ih =>
    rcases List.pairwise_cons.mp hl with ⟨hy, hys⟩
    by_cases h : le x y = true
    · rw [insertOrdered, if_pos h]
      refine List.pairwise_cons.mpr ⟨?_, hl⟩
      intro b hb
      rcases List.mem_cons.mp hb with rfl | hb
      · exact h
      · exact htrans x y b h (hy b hb)
    · rw [insertOrdered, if_neg h]
      refine List.pairwise_cons.mpr ⟨?_, ih hys⟩
      intro b hb
      rcases (mem_insertOrdered le x b ys).mp hb with rfl | hb
      · exact htot b y (by revert h; cases le b y <;> simp)
      · exact hy b hb

lemma stableSortBy_pairwise_le (le : α → α → Bool)
    (htot : ∀ a b, le a b = false → le b a = true)
    (htrans : ∀ a b c, le a b = true → le b c = true → le a c = true)
    (l : List α) :
    (stableSortBy le l).Pairwise (fun a b => le a b = true) := by
  induction l with
  | nil => simp [stableSortBy]
  | cons x xs ih => exact pairwise_insertOrdered le htot htrans x _ ih

lemma pairwise_tie_insertOrdered (le : α → α → Bool) (P : α → α → Prop)
    (x : α) (l : List α)
    (hl : l.Pairwise (fun a b => le b a = true → P a b))
    (hx : ∀ b ∈ l, P x b) :
    (insertOrdered le x l).Pairwise (fun a b => le b a = true → P a b) := by
  induction l with
  | nil => simp [insertOrdered]
  | cons y ys ih =>
    rcases List.pairwise_cons.mp hl with ⟨hy, hys⟩
    by_cases h : le x y = true
    · rw [insertOrdered, if_pos h]
      refine List.pairwise_cons.mpr ⟨?_, hl⟩
      intro b hb _
      exact hx b hb
    · rw [insertOrdered, if_neg h]
      refine List.pairwise_cons.mpr
        ⟨?_, ih hys (fun b hb => hx b (List.mem_cons_of_mem y hb))⟩
      intro b hb hby
      rcases (mem_insertOrdered le x b ys).mp hb with rfl | hb
      · exact absurd hby h
      · exact hy b hb hby

/-- Stability of the modelled `slice::sort_by`: whenever the input respects
a relation `P` pairwise, elements that the comparator would also allow in
the opposite order (ties) still satisfy `P` in the output order. -/
lemma stableSortBy_pairwise_tie (le : α → α → Bool) (P : α → α → Prop)
    (l : List α) (hl : l.Pairwise P) :
    (stableSortBy le l).Pairwise (fun a b => le b a = true → P a b) := by
  induction l with
  | nil => simp [stableSortBy]
  | cons x xs ih =>
    rcases List.pairwise_cons.mp hl with ⟨hx, hxs⟩
    refine pairwise_tie_insertOrdered le P x _ (ih hxs) ?_
    intro b hb
    exact hx b ((stableSortBy_perm le xs).mem_iff.mp hb)

lemma insertOrdered_eq_cons_of_le (le : α → α → Bool)
    (htrans : ∀ a b c, le a b = true → le b c = true → le a c = true)
    (z y : α) (ys : List α)
    (hsort : (y :: ys).Pairwise (fun a b => le a b = true))
    (hzy : le z y = true) : insertOrdered le z ys = z :: ys := by
  cases ys with
  | nil => rfl
  | cons a as =>
    have hya : le y a = true :=
      (List.pairwise_cons.mp hsort).1 a (List.mem_cons_self a as)
    rw [insertOrdered, if_pos (htrans z y a hzy hya)]

/-- Key commutation: inserting into a sorted suffix then removing the head
is the same as inserting into the whole sorted list and removing one more
element of the front. -/
lemma tail_insertOrdered_drop (le : α → α → Bool)
    (htrans : ∀ a b c, le a b = true → le b c = true → le a c = true)
    (z : α) :
    ∀ (S : List α) (j : Nat), S.Pairwise (fun a b => le a b = true) →
      (insertOrdered le z (S.drop j)).tail = (insertOrdered le z S).drop (j + 1) := by
  intro S
  induction S with
  | nil =>
    intro j _
    simp [insertOrdered]
  | cons y ys ih =>
    intro j hsort
    cases j with
    | zero =>
      rw [List.drop_zero, ← List.drop_one]
    | succ j' =>
      have hys : ys.Pairwise (fun a b => le a b = true) :=
        (List.pairwise_cons.mp hsort).2
      rw [List.drop_succ_cons, ih j' hys]
      by_cases h : le z y = true
      · rw [show insertOrdered le z (y :: ys) = z :: y :: ys from by
          rw [insertOrdered, if_pos h]]
        rw [insertOrdered_eq_cons_of_le le htrans z y ys hsort h]
        rw [List.drop_succ_cons, List.drop_succ_cons, List.drop_succ_cons]
      · rw [show insertOrdered le z (y :: ys) = y :: insertOrdered le z ys from by
          rw [insertOrdered, if_neg h]]
        rw [List.drop_succ_cons]

lemma lexLe_total (a b : Nat × Nat) (h : lexLe a b = false) : lexLe b a = true := by
  simp only [lexLe, decide_eq_false_iff_not, decide_eq_true_eq] at h ⊢
  omega

lemma lexLe_trans (a b c : Nat × Nat) (h1 : lexLe a b = true)
    (h2 : lexLe b c = true) : lexLe a c = true := by
  simp only [lexLe, decide_eq_true_eq] at h1 h2 ⊢
  omega

lemma lexLe_fst (a b : Nat × Nat) (h : lexLe a b = true) : a.1 ≤ b.1 := by
  simp only [lexLe, decide_eq_true_eq] at h
  omega

lemma sortLexAsc_concat (l : List (Nat × Nat)) (z : Nat × Nat) :
    sortLexAsc (l ++ [z]) = insertOrdered lexLe z (sortLexAsc l) := by
  simp [sortLexAsc, List.foldl_append]

lemma pairwise_foldl_insertOrdered (le : α → α → Bool)
    (htot : ∀ a b, le a b = false → le b a = true)
    (htrans : ∀ a b c, le a b = true → le b c = true → le a c = true) :
    ∀ (l acc : List α), acc.Pairwise (fun a b => le a b = true) →
      (l.foldl (fun acc x => insertOrdered le x acc) acc).Pairwise
        (fun a b => le a b = true) := by
  intro l
  induction l with
  | nil => intro acc h; exact h
  | cons x xs ih =>
    intro acc h
    exact ih _ (pairwise_insertOrdered le htot htrans x acc h)

lemma sortLexAsc_pairwise (l : List (Nat × Nat)) :
    (sortLexAsc l).Pairwise (fun a b => lexLe a b = true) :=
  pairwise_foldl_insertOrdered lexLe lexLe_total lexLe_trans l [] List.Pairwise.nil

lemma perm_foldl_insertOrdered (le : α → α → Bool) :
    ∀ (l acc : List α),
      (l.foldl (fun acc x => insertOrdered le x acc) acc).Perm (acc ++ l) := by
  intro l
  induction l with
  | nil => intro acc; simp
  | cons x xs ih =>
    intro acc
    refine (ih (insertOrdered le x acc)).trans ?_
    refine (List.Perm.append_right xs (insertOrdered_perm le x acc)).trans ?_
    exact List.perm_middle.symm

lemma sortLexAsc_perm (l : List (Nat × Nat)) : (sortLexAsc l).Perm l := by
  simpa using perm_foldl_insertOrdered lexLe l []

lemma length_sortLexAsc (l : List (Nat × Nat)) :
    (sortLexAsc l).length = l.length :=
  (sortLexAsc_perm l).length_eq

lemma matchedPairs_succ (score : Nat → Option Nat) (n : Nat) :
    matchedPairs score (n + 1)
      = matchedPairs score n ++ ((score n).map (fun s => (s, n))).toList := by
  rw [matchedPairs, List.range_succ, List.filterMap_append]
  cases hs : score n <;> simp [matchedPairs, hs]

lemma mem_matchedPairs (score : Nat → Option Nat) (n : Nat) (x : Nat × Nat) :
    x ∈ matchedPairs score n ↔ x.2 < n ∧ score x.2 = some x.1 := by
  simp only [matchedPairs, List.mem_filterMap, List.mem_range]
  constructor
  · rintro ⟨i, hi, hmap⟩
    cases hs : score i with
    | none => rw [hs] at hmap; exact absurd hmap (by simp)
    | some s =>
      rw [hs] at hmap
      simp only [Option.map_some', Option.some.injEq] at hmap
      rw [← hmap]
      exact ⟨hi, hs⟩
  · rintro ⟨h2, hs⟩
    exact ⟨x.2, h2, by rw [hs]; rfl⟩

lemma scanTopK_count (score : Nat → Option Nat) :
    ∀ n, (scanTopK score n).2 = (matchedPairs score n).length := by
  intro n
  induction n with
  | zero => rfl
  | succ n ih =>
    rw [matchedPairs_succ]
    cases hs : score n with
    | none => simp [scanTopK, hs, ih]
    | some s => simp [scanTopK, hs, ih]

lemma matchedPairs_length_filter (score : Nat → Option Nat) :
    ∀ n, (matchedPairs score n).length
      = ((List.range n).filter (fun i => (score i).isSome)).length := by
  intro n
  induction n with
  | zero => rfl
  | succ n ih =>
    rw [matchedPairs_succ, List.range_succ, List.filter_append,
        List.length_append, List.length_append, ih]
    cases hs : score n <;> simp [hs]

/-- The closed form of the bench heap: after scanning `n` candidates, the
heap holds exactly the at most `TOP_K` lexicographically greatest matched
`(score, index)` pairs. -/
lemma heapStep_topKLex (M : List (Nat × Nat)) (z : Nat × Nat) :
    heapStep (topKLex M) z = topKLex (M ++ [z]) := by
  have hS : (sortLexAsc M).length = M.length := length_sortLexAsc M
  have hsorted := sortLexAsc_pairwise M
  rw [topKLex, topKLex, sortLexAsc_concat, List.length_append]
  simp only [heapStep, List.length_cons, List.length_nil, Nat.zero_add]
  by_cases hK : M.length < TOP_K
  · have h0 : M.length - TOP_K = 0 := by omega
    have h1 : M.length + 1 - TOP_K = 0 := by omega
    rw [h0, List.drop_zero]
    have hlen : (insertOrdered lexLe z (sortLexAsc M)).length = M.length + 1 := by
      rw [(insertOrdered_perm lexLe z (sortLexAsc M)).length_eq,
          List.length_cons, hS]
    rw [if_neg (by omega)]
    rw [h1, List.drop_zero]
  · have hKle : TOP_K ≤ M.length := by omega
    have hdroplen : ((sortLexAsc M).drop (M.length - TOP_K)).length = TOP_K := by
      rw [List.length_drop, hS]; omega
    have hlen : (insertOrdered lexLe z
        ((sortLexAsc M).drop (M.length - TOP_K))).length = TOP_K + 1 := by
      rw [(insertOrdered_perm lexLe z _).length_eq, List.length_cons, hdroplen]
    rw [if_pos (by omega)]
    rw [tail_insertOrdered_drop lexLe lexLe_trans z (sortLexAsc M)
        (M.length - TOP_K) hsorted]
    congr 1
    omega

lemma scanTopK_heap_closed (score : Nat → Option Nat) :
    ∀ n, (scanTopK score n).1 = topKLex (matchedPairs score n) := by
  intro n
  induction n with
  | zero => rfl
  | succ n ih =>
    cases hs : score n with
    | none =>
      have hM : matchedPairs score (n + 1) = matchedPairs score n := by
        rw [matchedPairs_succ, hs]
        simp
      rw [hM, ← ih]
      simp [scanTopK, hs]
    | some s =>
      have hM : matchedPairs score (n + 1)
          = matchedPairs score n ++ [(s, n)] := by
        rw [matchedPairs_succ, hs]
        rfl
      rw [hM, ← heapStep_topKLex, ← ih]
      simp [scanTopK, hs]

lemma length_topKLex (M : List (Nat × Nat)) :
    (topKLex M).length = min M.length TOP_K := by
  rw [topKLex, List.length_drop, length_sortLexAsc]
  omega

lemma topKLex_subset (M : List (Nat × Nat)) (x : Nat × Nat)
    (hx : x ∈ topKLex M) : x ∈ M :=
  (sortLexAsc_perm M).mem_iff.mp (List.drop_subset _ _ hx)

lemma topKLex_dominates (M : List (Nat × Nat)) (x y : Nat × Nat)
    (hx : x ∈ topKLex M) (hyM : y ∈ M) (hy : y ∉ topKLex M) :
    lexLe y x = true := by
  have hsorted := sortLexAsc_pairwise M
  have hyS : y ∈ sortLexAsc M := (sortLexAsc_perm M).mem_iff.mpr hyM
  have hytake : y ∈ (sortLexAsc M).take (M.length - TOP_K) := by
    rw [← List.take_append_drop (M.length - TOP_K) (sortLexAsc M)] at hyS
    rcases List.mem_append.mp hyS with h | h
    · exact h
    · exact absurd h hy
  rw [← List.take_append_drop (M.length - TOP_K) (sortLexAsc M)] at hsorted
  rcases List.pairwise_append.mp hsorted with ⟨-, -, hcross⟩
  exact hcross y hytake x hx

lemma scoreDescLe_total (a b : Nat × Nat) (h : scoreDescLe a b = false) :
    scoreDescLe b a = true := by
  simp only [scoreDescLe, decide_eq_false_iff_not, decide_eq_true_eq] at h ⊢
  omega

lemma scoreDescLe_trans (a b c : Nat × Nat) (h1 : scoreDescLe a b = true)
    (h2 : scoreDescLe b c = true) : scoreDescLe a c = true := by
  simp only [scoreDescLe, decide_eq_true_eq] at h1 h2 ⊢
  omega

/-- C9: the bench heap's elements are ordered lexicographically on
`(score, candidate index)`, so after any candidate scan the retained set is
exactly the at most `TOP_K` lexicographically greatest matched pairs — a
deterministic function of the scored candidate sequence, independent of any
arbitrary insertion order — and every matched pair not retained is
lexicographically at most every retained pair: it has a strictly lower
score, or the same score and a smaller (hence first-evicted) candidate
index. -/
theorem claim9_heap_lex_order (score : Nat → Option Nat) (n : Nat) :
    (scanTopK score n).1 = topKLex (matchedPairs score n)
  ∧ (∀ x ∈ (scanTopK score n).1, ∀ y ∈ matchedPairs score n,
      y ∉ (scanTopK score n).1 → lexLe y x = true) := by
  refine ⟨scanTopK_heap_closed score n, ?_⟩
  intro x hx y hyM hy
  rw [scanTopK_heap_closed score n] at hx hy
  exact topKLex_dominates _ x y hx hyM hy

/-- C1: for every query (modelled by an arbitrary scorer) and candidate
count, (i) the bench heap never holds more than `TOP_K = 100` elements at
any point of the scan (after each candidate's push-and-evict step), (ii)
the per-query match count equals the number of candidates for which the
scorer returned a score, and (iii) the drained-and-sorted result list has
exactly `min(match count, 100)` elements, is sorted by descending score,
consists of matched candidates paired with their returned scores, and any
matched candidate left out scores no higher than every retained one, i.e.
the result is the (up to) 100 highest-scoring matched candidates. -/
theorem claim1_bench_topk (score : Nat → Option Nat) (n : Nat) :
    (∀ m, (scanTopK score m).1.length ≤ TOP_K)
  ∧ (scanTopK score n).2
      = ((List.range n).filter (fun i => (score i).isSome)).length
  ∧ (benchTopResults score n).length = min ((scanTopK score n).2) TOP_K
  ∧ List.Pairwise (fun a b : Nat × Nat => b.1 ≤ a.1) (benchTopResults score n)
  ∧ (∀ x ∈ benchTopResults score n, x.2 < n ∧ score x.2 = some x.1)
  ∧ (∀ x ∈ benchTopResults score n, ∀ y ∈ matchedPairs score n,
      y ∉ benchTopResults score n → y.1 ≤ x.1) := by
  have hmemres : ∀ x, x ∈ benchTopResults score n ↔ x ∈ topKLex (matchedPairs score n) := by
    intro x
    rw [benchTopResults, (stableSortBy_perm scoreDescLe _).mem_iff,
        scanTopK_heap_closed score n]
  refine ⟨?_, ?_, ?_, ?_, ?_, ?_⟩
  · intro m
    rw [scanTopK_heap_closed, length_topKLex]
    exact Nat.min_le_right _ _
  · rw [scanTopK_count, matchedPairs_length_filter]
  · rw [benchTopResults, length_stableSortBy, scanTopK_heap_closed,
        length_topKLex, scanTopK_count]
  · have hp := stableSortBy_pairwise_le scoreDescLe scoreDescLe_total
      scoreDescLe_trans (scanTopK score n).1
    refine hp.imp ?_
    intro a b h
    simpa [scoreDescLe] using h
  · intro x hx
    have hxM : x ∈ matchedPairs score n :=
      topKLex_subset _ x ((hmemres x).mp hx)
    exact (mem_matchedPairs score n x).mp hxM
  · intro x hx y hyM hy
    have hlex : lexLe y x = true :=
      topKLex_dominates _ x y ((hmemres x).mp hx) hyM
        (fun hc => hy ((hmemres y).mpr hc))
    exact lexLe_fst y x hlex

lemma matchedPairs_pairwise_index (score : Nat → Option Nat) (n : Nat) :
    (matchedPairs score n).Pairwise (fun a b => a.2 < b.2) := by
  induction n with
  | zero => exact List.Pairwise.nil
  | succ n ih =>
    rw [matchedPairs_succ]
    cases hs : score n with
    | none => simpa using ih
    | some s =>
      simp only [Option.map_some', Option.toList_some]
      refine List.pairwise_append.mpr ⟨ih, List.pairwise_singleton _ _, ?_⟩
      intro a ha b hb
      rw [List.mem_singleton] at hb
      subst hb
      exact ((mem_matchedPairs score n a).mp ha).1

/-- C10: the quality tool's descending sort compares scores only and is
stable (Rust `sort_by` is documented stable), so candidates with equal
scores remain in ascending load-order index: the printed order within score
ties is deterministic. -/
theorem claim10_quality_stable_ties (score : Nat → Option Nat) (n : Nat) :
    List.Pairwise (fun a b : Nat × Nat => b.1 ≤ a.1) (qualitySorted score n)
  ∧ List.Pairwise (fun a b : Nat × Nat => a.1 = b.1 → a.2 < b.2)
      (qualitySorted score n) := by
  constructor
  · have hp := stableSortBy_pairwise_le scoreDescLe scoreDescLe_total
      scoreDescLe_trans (matchedPairs score n)
    exact hp.imp (fun h => by simpa [scoreDescLe] using h)
  · have hp := stableSortBy_pairwise_tie scoreDescLe (fun a b => a.2 < b.2)
      (matchedPairs score n) (matchedPairs_pairwise_index score n)
    refine hp.imp ?_
    intro a b h heq
    apply h
    simp [scoreDescLe, heq]

lemma pairwise_enum_snd (R : α → α → Prop) (l : List α) (h : l.Pairwise R) :
    l.enum.Pairwise (fun p q => R p.2 q.2) :=
  List.pairwise_map.mp (by rw [List.enum_map_snd]; exact h)

/-- C3: for every accepted input line of the quality tool (modelled by an
arbitrary scorer over the corpus; skipped lines print nothing), at most 10
ranked rows are printed, the printed rows carry scores in descending order
(the sort key is the score alone), and the printed ranks are the
consecutive integers 1, 2, … in order. -/
theorem claim3_quality_top10 (score : Nat → Option Nat) (n : Nat) :
    (qualityRows score n).length ≤ 10
  ∧ (qualityRows score n).map (fun r => r.1)
      = List.range' 1 (qualityRows score n).length
  ∧ List.Pairwise (fun a b => b.2.1 ≤ a.2.1) (qualityRows score n) := by
  have hlenrows : (qualityRows score n).length
      = ((qualitySorted score n).take 10).length := by
    rw [qualityRows, List.length_map, List.enum_length]
  refine ⟨?_, ?_, ?_⟩
  · rw [hlenrows, List.length_take]
    omega
  · rw [hlenrows, qualityRows, List.map_map]
    have hcomp : ((fun r : Nat × Nat × Nat => r.1)
        ∘ (fun p : Nat × (Nat × Nat) => (p.1 + 1, p.2)))
        = ((fun i : Nat => i + 1) ∘ Prod.fst) := rfl
    rw [hcomp, ← List.map_map, List.enum_map_fst, List.range'_eq_map_range]
    have hfun : (fun i : Nat => i + 1) = (fun i : Nat => 1 + i) :=
      funext fun i => Nat.add_comm i 1
    rw [hfun]
  · have hsorted : List.Pairwise (fun a b : Nat × Nat => b.1 ≤ a.1)
        ((qualitySorted score n).take 10) := by
      have hp := stableSortBy_pairwise_le scoreDescLe scoreDescLe_total
        scoreDescLe_trans (matchedPairs score n)
      exact (hp.imp (fun h => by simpa [scoreDescLe] using h)).sublist
        (List.take_sublist 10 _)
    rw [qualityRows]
    exact List.pairwise_map.mpr
      (pairwise_enum_snd (fun a b : Nat × Nat => b.1 ≤ a.1) _ hsorted)

lemma qLe_total (a b : ℚ) (h : qLe a b = false) : qLe b a = true := by
  simp only [qLe, decide_eq_false_iff_not, decide_eq_true_eq] at h ⊢
  exact le_of_not_le h

lemma qLe_trans (a b c : ℚ) (h1 : qLe a b = true) (h2 : qLe b c = true) :
    qLe a c = true := by
  simp only [qLe, decide_eq_true_eq] at h1 h2 ⊢
  exact le_trans h1 h2

/-- C5: for every non-empty list of iteration timings, the reported median
is the element at index `length / 2` of the ascending-sorted list — an
actual member of the timings, never an average: for an odd count `2k + 1`
it is the true middle element (index `k`), for an even count `2k + 2` it is
the upper-middle element (index `k + 1`), which the lower-middle element
(index `k`) never exceeds. -/
theorem claim5_median (timings : List ℚ) (k : Nat) :
    (timings ≠ [] → medianTiming timings ∈ timings)
  ∧ (timings.length = 2 * k + 1 →
      medianTiming timings = (stableSortBy qLe timings).getD k 0)
  ∧ (timings.length = 2 * k + 2 →
      medianTiming timings = (stableSortBy qLe timings).getD (k + 1) 0
      ∧ (stableSortBy qLe timings).getD k 0 ≤ medianTiming timings) := by
  refine ⟨?_, ?_, ?_⟩
  · intro hne
    have hpos : 0 < timings.length := List.length_pos.mpr hne
    have hidx : timings.length / 2 < (stableSortBy qLe timings).length := by
      rw [length_stableSortBy]
      omega
    rw [medianTiming, List.getD_eq_getElem _ _ hidx]
    exact (stableSortBy_perm qLe timings).mem_iff.mp (List.getElem_mem hidx)
  · intro hl
    rw [medianTiming, hl]
    congr 1
    omega
  · intro hl
    have hlen : (stableSortBy qLe timings).length = 2 * k + 2 := by
      rw [length_stableSortBy, hl]
    constructor
    · rw [medianTiming, hl]
      congr 1
      omega
    · have hk : k < (stableSortBy qLe timings).length := by omega
      have hk1 : k + 1 < (stableSortBy qLe timings).length := by omega
      have hpair := stableSortBy_pairwise_le qLe qLe_total qLe_trans timings
      have := List.pairwise_iff_get.mp hpair ⟨k, hk⟩ ⟨k + 1, hk1⟩
        (by simp [Fin.lt_def])
      simp only [qLe, decide_eq_true_eq] at this
      rw [medianTiming, hl, List.getD_eq_getElem _ _ (by omega),
          List.getD_eq_getElem _ _ (by omega)]
      have hhalf : (2 * k + 2) / 2 = k + 1 := by omega
      simp only [hhalf]
      simpa [List.get_eq_getElem] using this

/-- Witness for C5 on the concrete even-length timing list `[1, 2]`: the
median is the upper-middle sorted element (index 1), the lower-middle does
not exceed it, and it is a member of the list (for `[1, 2]` it equals 2,
not the two-middle average 3/2). -/
theorem claim5_median_witness :
    medianTiming [(1 : ℚ), 2] ∈ [(1 : ℚ), 2]
  ∧ medianTiming [(1 : ℚ), 2] = (stableSortBy qLe [(1 : ℚ), 2]).getD 1 0
  ∧ (stableSortBy qLe [(1 : ℚ), 2]).getD 0 0 ≤ medianTiming [(1 : ℚ), 2] :=
  ⟨(claim5_median [(1 : ℚ), 2] 0).1 (List.cons_ne_nil _ _),
   ((claim5_median [(1 : ℚ), 2] 0).2.2 rfl).1,
   ((claim5_median [(1 : ℚ), 2] 0).2.2 rfl).2⟩

lemma getD_set_self (v : Nat) :
    ∀ (l : List Nat) (i : Nat), i < l.length → (l.set i v).getD i 0 = v := by
  intro l
  induction l with
  | nil => intro i h; simp at h
  | cons x xs ih =>
    intro i h
    cases i with
    | zero => rfl
    | succ i =>
      show (xs.set i v).getD i 0 = v
      exact ih i (by simpa using h)

lemma getD_set_ne (v : Nat) :
    ∀ (l : List Nat) (i j : Nat), i ≠ j → (l.set i v).getD j 0 = l.getD j 0 := by
  intro l
  induction l with
  | nil => intro i j _; rfl
  | cons x xs ih =>
    intro i j hij
    cases i with
    | zero =>
      cases j with
      | zero => exact absurd rfl hij
      | succ j => rfl
    | succ i =>
      cases j with
      | zero => rfl
      | succ j =>
        show (xs.set i v).getD j 0 = xs.getD j 0
        exact ih i j (by omega)

lemma length_foldl_set (g : Nat → Nat) :
    ∀ (l : List Nat) (cs : List Nat),
      (l.foldl (fun cs q => cs.set q (g q)) cs).length = cs.length := by
  intro l
  induction l with
  | nil => intro cs; rfl
  | cons x xs ih =>
    intro cs
    rw [List.foldl_cons, ih, List.length_set]

lemma getD_foldl_set (g : Nat → Nat) (qi : Nat) :
    ∀ (qc : Nat) (cs : List Nat), qi < qc → qi < cs.length →
      ((List.range qc).foldl (fun cs q => cs.set q (g q)) cs).getD qi 0 = g qi := by
  intro qc
  induction qc with
  | zero => intro cs h _; omega
  | succ qc ih =>
    intro cs hqi hlen
    rw [List.range_succ, List.foldl_append, List.foldl_cons, List.foldl_nil]
    by_cases h : qi = qc
    · subst h
      exact getD_set_self _ _ _ (by rw [length_foldl_set]; exact hlen)
    · rw [getD_set_ne _ _ _ _ (fun hc => h hc.symm)]
      exact ih cs (by omega) hlen

lemma recordMatchCounts_zero (mc : Nat → Nat → Nat) (qc : Nat) (cs : List Nat) :
    recordMatchCounts 0 mc qc cs
      = (List.range qc).foldl (fun cs q => cs.set q (mc 0 q)) cs := by
  rw [recordMatchCounts]
  simp

lemma recordMatchCounts_ne_zero (iter : Nat) (h : iter ≠ 0)
    (mc : Nat → Nat → Nat) (qc : Nat) (cs : List Nat) :
    recordMatchCounts iter mc qc cs = cs := by
  rw [recordMatchCounts]
  have hgen : ∀ (l : List Nat) (cs : List Nat),
      l.foldl (fun cs qi => if iter = 0 then cs.set qi (mc iter qi) else cs) cs
        = cs := by
    intro l
    induction l with
    | nil => intro cs; rfl
    | cons x xs ih =>
      intro cs
      rw [List.foldl_cons, if_neg h]
      exact ih cs
  exact hgen _ cs

/-- C6: in the bench tool, the match count stored for every query index is
the one observed during the first iteration (`iter == 0`); match counts of
all later iterations are discarded.  Per-iteration counts are modelled as
an arbitrary function of the iteration since the external matcher is a
black box. -/
theorem claim6_first_iteration_count (iterations queryCount : Nat)
    (mc : Nat → Nat → Nat) (qi : Nat)
    (hit : 0 < iterations) (hqi : qi < queryCount) :
    (benchMatchCounts iterations queryCount mc).getD qi 0 = mc 0 qi := by
  induction iterations with
  | zero => omega
  | succ it ih =>
    rw [benchMatchCounts, List.range_succ, List.foldl_append, List.foldl_cons,
        List.foldl_nil]
    by_cases h : it = 0
    · subst h
      simp only [List.range_zero, List.foldl_nil]
      rw [recordMatchCounts_zero]
      exact getD_foldl_set (mc 0) qi queryCount (List.replicate queryCount 0)
        hqi (by rw [List.length_replicate]; exact hqi)
    · rw [recordMatchCounts_ne_zero it h]
      exact ih (by omega)

/-- Witness for C6: with 3 iterations whose observed match counts differ by
iteration (`10 - iter`), the stored count for query 1 is iteration 0's
count, 10. -/
theorem claim6_first_iteration_count_witness :
    (benchMatchCounts 3 2 (fun iter _ => 10 - iter)).getD 1 0 = 10 :=
  claim6_first_iteration_count 3 2 (fun iter _ => 10 - iter) 1
    (by decide) (by decide)

/-- C7: the per-category summary table iterates over exactly the categories
that both occur in the query set and belong to the fixed nine-entry
preferred list, in the preferred list's order (it is a sublist of it);
queries with out-of-list categories are omitted only from that table: the
per-query detail table ranges over a permutation of all query indices, and
the throughput numerator multiplies the instrument count by the count of
all queries. -/
theorem claim7_category_table (queries : List Query) (c : Str)
    (queryCount instrumentCount : Nat) (medianOf : Nat → ℚ) :
    (c ∈ shownCategories queries
      ↔ c ∈ preferredCategories ∧ ∃ q ∈ queries, q.category = c)
  ∧ (shownCategories queries).Sublist preferredCategories
  ∧ (detailIndices queryCount medianOf).Perm (List.range queryCount)
  ∧ totalCandidatesScored instrumentCount queryCount
      = instrumentCount * queryCount := by
  refine ⟨?_, ?_, ?_, rfl⟩
  · rw [shownCategories, List.mem_filter]
    simp [List.any_eq_true]
  · exact List.filter_sublist _
  · exact stableSortBy_perm _ _

end FuzzyMatch
